import Mathlib

/-!
Verification of the GEEQuestionBank extraction pipeline (`core.py`).

Shallow embedding conventions:
* A raw candidate question (the JSON objects returned by the extraction
  service) is `RawQuestion`; optional JSON fields (`null` in JSON) are
  `Option`-valued.  Per the extraction prompt, all five keys are present,
  possibly null.
* A record in the persisted Store is `StoredRecord`: the raw fields plus the
  three metadata keys (`source_pdf`, `source_page`, `searchable_text`) that
  `main` attaches at finalization.  `none` models "key absent on the dict".
* The extraction outcome of a page (`call_vlm_api`) is
  `Option (List RawQuestion)`: `none` for an API/parse failure, `some l`
  for a parsed JSON list.  the Python check `if page_results:` is falsy for both
  `none` and `some []`.
* The pending fragment (`incomplete_question_buffer`) is
  `Option RawQuestion`.  (In the source it is a dict or `None`; a dict put
  in the buffer always has a non-empty `stem_text`, so dict truthiness
  coincides with being set.)
* The renderer (`pdf_to_images`) is external (`fitz`); its observable
  behavior is the number of page images it returns.  The `try`/`except` in the source accumulates pages and, on a mid-document error, returns the
  pages rendered so far, so `RenderResult` distinguishes a clean render, an
  open failure (no pages) and a failure after `k` rendered pages.
-/

namespace GEEQB

/-- One raw candidate question record, as parsed from the JSON of the extraction
service (`core.py` §6 field list / `VLM_PROMPT`). -/
structure RawQuestion where
  section_title : Option String
  question_number : Option String
  stem_text : String
  options : Option (List (String × String))
  image_description : String
deriving DecidableEq

/-- One record as held/persisted by the Store (a Python dict).  The three
metadata fields are `none` when the corresponding key was never attached. -/
structure StoredRecord where
  q : RawQuestion
  source_pdf : Option String
  source_page : Option Nat
  searchable_text : Option String
deriving DecidableEq

/-- Python `stem[-10:]` on a string viewed as a list of characters
(code points): the final at most `n` characters. -/
def lastN (n : Nat) (l : List Char) : List Char := l.drop (l.length - n)

/-- Boolean test: `p` is a prefix of `s` (character lists). -/
def listPrefixB : List Char → List Char → Bool
  | [], _ => true
  | _ :: _, [] => false
  | a :: as, b :: bs => a == b && listPrefixB as bs

/-- Boolean test for the Python substring operator `p in s`. -/
def listInfixB (p : List Char) : List Char → Bool
  | [] => listPrefixB p []
  | b :: bs => listPrefixB p (b :: bs) || listInfixB p bs

/-- Boolean test for the Python call `s.endswith(p)`. -/
def listSuffixB (p s : List Char) : Bool := listPrefixB p.reverse s.reverse

/-- The choice-letter markers of `is_question_incomplete` rule 1
(`core.py` line 145). -/
def choiceMarkers : List (List Char) := ["A.".data, "B.".data, "C.".data, "D.".data]

/-- The dangling-token tuple of `is_question_incomplete` rule 2
(`core.py` line 149): full-width comma, comma, full-width colon, colon,
and the phrase "as shown in the figure". -/
def danglingTokens : List (List Char) :=
  ["，".data, ",".data, "：".data, ":".data, "如图所示".data]

/-- The heuristic `is_question_incomplete` (`core.py` lines 136-152).
Rule 1: a choice-letter marker occurs in the last 10 characters of the stem
and `options` is null.  Rule 2: the stem ends with a dangling token. -/
def is_question_incomplete (q : RawQuestion) : Bool :=
  (choiceMarkers.any (fun m => listInfixB m (lastN 10 q.stem_text.data))
      && q.options.isNone)
    || danglingTokens.any (fun t => listSuffixB t q.stem_text.data)

/-- Python `question.get(key)` for a key that is present with a possibly-null
value, as it is rendered inside the f-string at `core.py` line 245:
`None` prints as `"None"`. -/
def pyOptStr : Option String → String
  | none => "None"
  | some s => s

/-- The `searchable_text` computed at finalization (`core.py` line 245):
`f"{...section_title} {...question_number}: {...stem_text}"`. -/
def searchableText (q : RawQuestion) : String :=
  pyOptStr q.section_title ++ " " ++ pyOptStr q.question_number ++ ": " ++ q.stem_text

/-- Finalization (`core.py` lines 241-246): attach `source_pdf`,
`source_page` and `searchable_text` to a candidate. -/
def finalize (name : String) (pageNum : Nat) (q : RawQuestion) : StoredRecord :=
  { q := q
    source_pdf := some name
    source_page := some pageNum
    searchable_text := some (searchableText q) }

/-- A raw record appended to the per-file output without any metadata, as
`main` does with the merged completion `page_results[0]` (`core.py`
line 228). -/
def rawStored (q : RawQuestion) : StoredRecord :=
  { q := q, source_pdf := none, source_page := none, searchable_text := none }

/-- The new pending buffer computed from the candidate list of a page
(`core.py` lines 236-238): the last candidate, iff it is judged
incomplete. -/
def pendingOfCandidates (cs : List RawQuestion) : Option RawQuestion :=
  match cs.getLast? with
  | some l => if is_question_incomplete l then some l else none
  | none => none

/-- The candidates kept for finalization (`remaining_results` after the
conditional `pop()`, `core.py` lines 236-237). -/
def keptCandidates (cs : List RawQuestion) : List RawQuestion :=
  match cs.getLast? with
  | some l => if is_question_incomplete l then cs.dropLast else cs
  | none => cs

/-- The candidate list of the page after the merge step: when a pending fragment
exists and the page parsed to a non-empty list, `page_results[0]` is taken
as the merged completion and `page_results[1:]` are the candidates
(`core.py` lines 226-233). -/
def pageCandidates (pending : Option RawQuestion)
    (res : Option (List RawQuestion)) : List RawQuestion :=
  match res, pending with
  | some (_ :: rest), some _ => rest
  | some (r0 :: rest), none => r0 :: rest
  | _, _ => []

/-- One iteration of the per-page loop body of `main` (`core.py` lines
222-246), given the pending buffer and the extraction outcome of the page.
Returns the records appended to `all_questions_for_this_pdf` for this page
(in append order) and the buffer left for the next page.  Note: when the
page is falsy (`none` or `some []`) the whole block is skipped and the
buffer is left unchanged; when a merge happens, the merged completion is
appended as-is (no metadata) before the finalized candidates. -/
def processPage (name : String) (pageNum : Nat) (pending : Option RawQuestion)
    (res : Option (List RawQuestion)) : List StoredRecord × Option RawQuestion :=
  match res, pending with
  | some (r0 :: rest), some _ =>
      (rawStored r0 :: (keptCandidates rest).map (finalize name pageNum),
       pendingOfCandidates rest)
  | some (r0 :: rest), none =>
      ((keptCandidates (r0 :: rest)).map (finalize name pageNum),
       pendingOfCandidates (r0 :: rest))
  | _, _ => ([], pending)

/-- The per-file page loop of `main` (`core.py` lines 210-246), pages
numbered `pageNum, pageNum+1, ...` for `n` pages.  `ex` is the extraction
service as a function of the page number and the pending buffer (the buffer
determines which prompt is sent, `core.py` lines 216-220).  Returns the
accumulated per-file record list and the final buffer. -/
def runPages (ex : Nat → Option RawQuestion → Option (List RawQuestion))
    (name : String) : Nat → Nat → Option RawQuestion →
    List StoredRecord × Option RawQuestion
  | _, 0, pending => ([], pending)
  | pageNum, n + 1, pending =>
      let step := processPage name pageNum pending (ex pageNum pending)
      let rest := runPages ex name (pageNum + 1) n step.2
      (step.1 ++ rest.1, rest.2)

/-- The list `all_questions_for_this_pdf` after the page loop of a file with `n`
pages: the loop starts at page 1 with an empty buffer, and whatever buffer
remains at end-of-file is discarded. -/
def fileRecords (ex : Nat → Option RawQuestion → Option (List RawQuestion))
    (name : String) (n : Nat) : List StoredRecord :=
  (runPages ex name 1 n none).1

/-- The pending buffer after the first `k` pages of a file have been
processed (so the buffer entering page `k + 1`). -/
def pendAt (ex : Nat → Option RawQuestion → Option (List RawQuestion))
    (name : String) : Nat → Option RawQuestion
  | 0 => none
  | k + 1 => (processPage name (k + 1) (pendAt ex name k)
      (ex (k + 1) (pendAt ex name k))).2

/-- The raw record list a page outcome carries (`[]` for a failed call). -/
def pageRaw : Option (List RawQuestion) → List RawQuestion
  | some l => l
  | none => []

/-- Observable behavior of `pdf_to_images` (`core.py` lines 75-95): the
loop appends one image path per rendered page inside `try`; an exception is
caught, logged, and the paths accumulated *so far* are returned.  So an
open failure yields no pages, and a rasterization failure at page `k + 1`
yields the first `k` pages. -/
inductive RenderResult where
  | ok (numPages : Nat)
  | openFail
  | pageFail (rendered : Nat)
deriving DecidableEq

/-- The number of image paths `pdf_to_images` returns. -/
def renderCount : RenderResult → Nat
  | .ok n => n
  | .openFail => 0
  | .pageFail k => k

/-- One input PDF: its basename, its render behavior, and the (deterministic)
responses of the extraction service for its pages. -/
structure FileInput where
  name : String
  render : RenderResult
  extract : Nat → Option RawQuestion → Option (List RawQuestion)

/-- The persisted state the pipeline mutates: the Store
(`processed_questions.json`, a record list) and the Ledger
(`processed_files.log`, a list of file names). -/
structure PipelineState where
  store : List StoredRecord
  ledger : List String
deriving DecidableEq

/-- The full record list `main` accumulates for one file. -/
def fileRecs (f : FileInput) : List StoredRecord :=
  fileRecords f.extract f.name (renderCount f.render)

/-- The per-file body of the loop in `main` (`core.py` lines 195-258).
`processedSet` is the ledger content loaded once at the start of the run
(`load_processed_files`); the skip check uses it, while a successful file
appends to the live ledger.  A file is skipped when already processed, when
`pdf_to_images` returned no images, or when zero records were accumulated;
otherwise its records are appended to the Store (`append_to_json_file`)
and its name to the ledger (`log_processed_file`). -/
def processOneFile (processedSet : List String) (st : PipelineState)
    (f : FileInput) : PipelineState :=
  if f.name ∈ processedSet then st
  else if renderCount f.render = 0 then st
  else if fileRecs f = [] then st
  else { store := st.store ++ fileRecs f, ledger := st.ledger ++ [f.name] }

/-- One invocation of `main` over the input directory: load the processed
set, then fold the per-file body over the PDF list. -/
def runBatch (files : List FileInput) (st : PipelineState) : PipelineState :=
  files.foldl (processOneFile st.ledger) st

/-- The on-disk state `append_to_json_file` finds: no file, a file whose
content fails to parse as JSON, or a parsed record list. -/
inductive StoreDoc where
  | absent
  | malformed
  | wellFormed (records : List StoredRecord)

/-- The value of `existing_data` after the load phase of `append_to_json_file`
(`core.py` lines 168-174): `[]` unless the file exists and parses. -/
def loadedRecords : StoreDoc → List StoredRecord
  | .wellFormed records => records
  | _ => []

/-- The function `append_to_json_file` (`core.py` lines 166-179): load (or default to
empty), extend with `data`, rewrite the whole document.  The returned list
is the document as rewritten. -/
def append_to_json_file (data : List StoredRecord) (doc : StoreDoc) :
    List StoredRecord :=
  loadedRecords doc ++ data

/-- Extraction oracle that answers page `p` from a fixed list of per-page
outcomes, ignoring the prompt. -/
def exOfList (pages : List (Option (List RawQuestion))) :
    Nat → Option RawQuestion → Option (List RawQuestion) :=
  fun p _ => pages.getD (p - 1) none

/-- The record list one file contributes, driven by a fixed list of
per-page extraction outcomes. -/
def processFileList (name : String) (pages : List (Option (List RawQuestion))) :
    List StoredRecord :=
  fileRecords (exOfList pages) name pages.length

/-- Modelled from the spec, §4.3 step 3 (the incompleteness test as the
spec words it — the second definition of a refinement pair, to be compared
with `is_question_incomplete` which is embedded from the source): a
candidate is INCOMPLETE iff its `options` field is null and a choice-letter
marker occurs in the final 10 characters of the stem, or the stem ends with
one of the fixed dangling tokens. -/
def SpecIncomplete (q : RawQuestion) : Prop :=
  (q.options = none ∧ ∃ m ∈ choiceMarkers, m <:+: lastN 10 q.stem_text.data)
    ∨ ∃ t ∈ danglingTokens, t <:+ q.stem_text.data

/-! ### Concrete inputs used by counterexamples and witnesses -/

/-- A complete multiple-choice question (judged complete by the test). -/
def qComplete : RawQuestion :=
  { section_title := some "一、选择题", question_number := some "1",
    stem_text := "求极限的值。", options := some [("A", "0"), ("B", "1")],
    image_description := "无" }

/-- A fragment: null `options` and a stem ending in a full-width comma, so
`is_question_incomplete` judges it incomplete (rule 2). -/
def fragQ : RawQuestion :=
  { section_title := none, question_number := some "2",
    stem_text := "设函数，", options := none, image_description := "无" }

/-- The merged completion the service returns for `fragQ` on the following
page (judged complete). -/
def contQ : RawQuestion :=
  { section_title := none, question_number := some "2",
    stem_text := "设函数连续。", options := none, image_description := "无" }

/-- A complete question with a null `section_title` (for the
`searchable_text` claim). -/
def qNullTitle : RawQuestion :=
  { section_title := none, question_number := some "7",
    stem_text := "求导数。", options := none, image_description := "无" }

/-- A two-page file whose page 1 ends in a fragment and whose page 2
returns the merged completion. -/
def fMerge : FileInput :=
  { name := "c1.pdf", render := .ok 2,
    extract := exOfList [some [fragQ], some [contQ]] }

/-- A file whose rendering fails after one page was rasterized; its one
rendered page extracts one complete question. -/
def fPartialRender : FileInput :=
  { name := "c3.pdf", render := .pageFail 1,
    extract := fun _ _ => some [qComplete] }

/-- A two-page document whose rendering fails after page 1; its two pages
would extract different questions. -/
def fPartial2 : FileInput :=
  { name := "c4.pdf", render := .pageFail 1,
    extract := fun p _ => if p = 1 then some [qComplete] else some [qNullTitle] }

/-- The same document as `fPartial2` but with rendering succeeding on both
pages. -/
def fPartial2Full : FileInput :=
  { name := "c4.pdf", render := .ok 2, extract := fPartial2.extract }

/-- A healthy one-page file (used by witnesses). -/
def fGood : FileInput :=
  { name := "w4.pdf", render := .ok 1, extract := fun _ _ => some [qComplete] }

/-- A file whose document cannot be opened (used by witnesses). -/
def fOpenFail : FileInput :=
  { name := "w3.pdf", render := .openFail, extract := fun _ _ => some [qComplete] }

/-- The empty persisted state. -/
def st0 : PipelineState := { store := [], ledger := [] }

/-! ### Correctness of the string-matching primitives -/

theorem listPrefixB_iff : ∀ p s : List Char, listPrefixB p s = true ↔ p <+: s
  | [], s => by simp [listPrefixB]
  | a :: as, [] => by simp [listPrefixB]
  | a :: as, b :: bs => by
      simp [listPrefixB, List.cons_prefix_cons, listPrefixB_iff as bs,
        Bool.and_eq_true, beq_iff_eq]

theorem listInfixB_iff : ∀ p s : List Char, listInfixB p s = true ↔ p <:+: s
  | p, [] => by
      simp [listInfixB, listPrefixB_iff, List.infix_nil, List.prefix_nil]
  | p, b :: bs => by
      simp [listInfixB, listPrefixB_iff, listInfixB_iff p bs, List.infix_cons_iff]

theorem listSuffixB_iff (p s : List Char) : listSuffixB p s = true ↔ p <:+ s := by
  rw [listSuffixB, listPrefixB_iff]
  exact List.reverse_prefix

/-! ### Shape of the records a page step emits -/

/-- Every record a page step appends is either the merged completion stored
raw (no metadata) or a candidate finalized with the metadata of this page. -/
theorem mem_processPage_fst {name : String} {p : Nat}
    {pending : Option RawQuestion} {res : Option (List RawQuestion)}
    {r : StoredRecord} (h : r ∈ (processPage name p pending res).1) :
    (∃ q, r = rawStored q) ∨ ∃ q, r = finalize name p q := by
  rcases res with _ | l
  · simp [processPage] at h
  · rcases l with _ | ⟨r0, rest⟩
    · rcases pending with _ | b <;> simp [processPage] at h
    · rcases pending with _ | b
      · rw [processPage] at h
        rcases List.mem_map.1 h with ⟨q, _, rfl⟩
        exact Or.inr ⟨q, rfl⟩
      · rw [processPage] at h
        rcases List.mem_cons.1 h with h | h
        · exact Or.inl ⟨r0, h⟩
        · rcases List.mem_map.1 h with ⟨q, _, rfl⟩
          exact Or.inr ⟨q, rfl⟩

/-- Every record the page loop accumulates is either a raw merged
completion or a record finalized at some page `≥` the start page. -/
theorem mem_runPages_fst {ex : Nat → Option RawQuestion → Option (List RawQuestion)}
    {name : String} :
    ∀ {n k : Nat} {pending : Option RawQuestion} {r : StoredRecord},
      r ∈ (runPages ex name k n pending).1 →
      (∃ q, r = rawStored q) ∨ ∃ p q, k ≤ p ∧ r = finalize name p q := by
  intro n
  induction n with
  | zero => intro k pending r h; simp [runPages] at h
  | succ n ih =>
      intro k pending r h
      simp only [runPages] at h
      rcases List.mem_append.1 h with h | h
      · rcases mem_processPage_fst h with ⟨q, rfl⟩ | ⟨q, rfl⟩
        · exact Or.inl ⟨q, rfl⟩
        · exact Or.inr ⟨k, q, Nat.le_refl k, rfl⟩
      · rcases ih h with ⟨q, rfl⟩ | ⟨p, q, hp, rfl⟩
        · exact Or.inl ⟨q, rfl⟩
        · exact Or.inr ⟨p, q, Nat.le_trans (Nat.le_succ k) hp, rfl⟩

/-! ### The claims -/

/-- Claim C1 (code bug, evaluated at the failing input).  The spec
invariant says every record reaching the Store carries `source_file`,
`source_page` and `searchable_text`.  On the two-page file `fMerge`
(page 1 buffers a fragment, page 2 returns the merged completion), the
merged completion `page_results[0]` is appended at `core.py` line 228
without ever passing through the metadata loop (lines 241-246): the Store
receives a record with none of the three fields, and the file is still
marked processed. -/
theorem merged_record_reaches_store_without_metadata :
    (processOneFile [] st0 fMerge).store = [rawStored contQ]
      ∧ (rawStored contQ).source_pdf = none
      ∧ (rawStored contQ).source_page = none
      ∧ (rawStored contQ).searchable_text = none
      ∧ fMerge.name ∈ (processOneFile [] st0 fMerge).ledger :=
  ⟨by decide, rfl, rfl, rfl, by decide⟩

/-- Claim C2 (counterexample).  The claim says a pending fragment is dropped
when the next page yields an empty result.  In `core.py` the whole
`if page_results:` block (lines 224-246) is skipped on a falsy result, so
the buffer is *not* cleared: after page 1 buffers `fragQ` and page 2
returns nothing, the buffer still holds `fragQ`; a non-empty page 3 then
consumes it via the merge branch, and its completion is appended to the
output of the file — the fragment was carried forward and reached the Store. -/
theorem pending_carried_over_empty_page_cx :
    (runPages (exOfList [some [fragQ], none]) "c2.pdf" 1 2 none).2 = some fragQ
      ∧ processFileList "c2.pdf" [some [fragQ], none, some [contQ]]
          = [rawStored contQ] :=
  ⟨by decide, by decide⟩

/-- Claim C2 (amended).  When a pending fragment is set and the extraction of the
page yields an empty result (a failed call `none`, or a parsed empty
list `some []`), the fragment is retained unchanged and carried into the
processing of the next page, and nothing is emitted for the empty page. -/
theorem pending_retained_on_empty_page (name : String) (p : Nat)
    (b : RawQuestion) :
    processPage name p (some b) none = ([], some b)
      ∧ processPage name p (some b) (some []) = ([], some b) :=
  ⟨rfl, rfl⟩

/-- Claim C3 (counterexample).  The claim says a render failure makes the
Driver skip the file entirely.  `pdf_to_images` (lines 81-95) returns the
pages rendered before the exception, so on `fPartialRender` (rasterization
fails after page 1) the file is processed with one page: a record is
appended to the Store and the file is marked in the ledger. -/
theorem midrun_render_failure_processed_cx :
    fPartialRender.render = RenderResult.pageFail 1
      ∧ processOneFile [] st0 fPartialRender
          = { store := [finalize "c3.pdf" 1 qComplete], ledger := ["c3.pdf"] } :=
  ⟨rfl, by decide⟩

/-- Claim C3 (amended).  When the renderer yields *no* images (the document
cannot be opened, or it fails before any page is rendered), the Driver
skips the file entirely: the persisted state is unchanged.  A failure
after `k ≥ 1` rendered pages instead processes those `k` pages. -/
theorem no_images_skips_file (processedSet : List String) (st : PipelineState)
    (f : FileInput) (h : renderCount f.render = 0) :
    processOneFile processedSet st f = st := by
  by_cases hm : f.name ∈ processedSet
  · rw [processOneFile, if_pos hm]
  · rw [processOneFile, if_neg hm, if_pos h]

/-- Witness for `no_images_skips_file` at a concrete unopenable file. -/
theorem no_images_skips_file_witness :
    renderCount fOpenFail.render = 0
      ∧ processOneFile ["x.pdf"] st0 fOpenFail = st0 :=
  ⟨rfl, no_images_skips_file ["x.pdf"] st0 fOpenFail rfl⟩

/-- Claim C4 (counterexample).  The claim says a file whose run produced a
partial or failed record set never appears in the ledger.  `fPartial2` is
a two-page document whose rendering fails after page 1: its run produces a
record set missing the question of page 2 (strictly fewer records than the
fully rendered run `fPartial2Full` would store), yet its name is appended
to the ledger. -/
theorem truncated_record_set_in_ledger_cx :
    fPartial2.render = RenderResult.pageFail 1
      ∧ (processOneFile [] st0 fPartial2).ledger = ["c4.pdf"]
      ∧ (processOneFile [] st0 fPartial2).store
          ≠ (processOneFile [] st0 fPartial2Full).store :=
  ⟨rfl, by decide, by decide⟩

/-- Claim C4 (amended).  For a file not yet in the processed set whose
renderer returned at least one image: its name is appended to the ledger
iff the run accumulated a non-empty record list, in which case exactly the
accumulated records (all of them) are appended to the Store; a
zero-record run leaves both Store and ledger unchanged. -/
theorem ledger_iff_all_records_written (processedSet : List String)
    (st : PipelineState) (f : FileInput) (hp : f.name ∉ processedSet)
    (hr : ¬renderCount f.render = 0) :
    ((processOneFile processedSet st f).ledger = st.ledger ++ [f.name]
        ↔ fileRecs f ≠ [])
      ∧ (fileRecs f ≠ [] →
          (processOneFile processedSet st f).store = st.store ++ fileRecs f)
      ∧ (fileRecs f = [] → processOneFile processedSet st f = st) := by
  rw [processOneFile, if_neg hp, if_neg hr]
  by_cases he : fileRecs f = []
  · rw [if_pos he]
    refine ⟨⟨fun h => ?_, fun h => absurd he h⟩, fun h => absurd he h, fun _ => rfl⟩
    have hlen := congrArg List.length h
    simp at hlen
  · rw [if_neg he]
    exact ⟨⟨fun _ => he, fun _ => rfl⟩, fun _ => rfl, fun h => absurd h he⟩

/-- Witness for `ledger_iff_all_records_written` on a healthy one-page
file. -/
theorem ledger_iff_all_records_written_witness :
    ((processOneFile [] st0 fGood).ledger = st0.ledger ++ [fGood.name]
        ↔ fileRecs fGood ≠ [])
      ∧ (fileRecs fGood ≠ [] →
          (processOneFile [] st0 fGood).store = st0.store ++ fileRecs fGood)
      ∧ (fileRecs fGood = [] → processOneFile [] st0 fGood = st0) :=
  ledger_iff_all_records_written [] st0 fGood (by decide) (by decide)

/-- Claim C5 (confirmed).  The incompleteness test of the code agrees exactly with
the wording of the spec (`SpecIncomplete`); the application site of the test
(`pendingOfCandidates`) depends only on the last candidate of the page, and
whenever it buffers a record, that record is the last candidate and was
judged incomplete — every other candidate is left to be finalized. -/
theorem incompleteness_test_exact :
    (∀ q, is_question_incomplete q = true ↔ SpecIncomplete q)
      ∧ (∀ cs₁ cs₂ : List RawQuestion, cs₁.getLast? = cs₂.getLast? →
          pendingOfCandidates cs₁ = pendingOfCandidates cs₂)
      ∧ (∀ (cs : List RawQuestion) (l : RawQuestion),
          pendingOfCandidates cs = some l →
          cs.getLast? = some l ∧ is_question_incomplete l = true) := by
  refine ⟨fun q => ?_, fun cs₁ cs₂ h => ?_, fun cs l h => ?_⟩
  · rw [is_question_incomplete, SpecIncomplete]
    simp only [Bool.or_eq_true, Bool.and_eq_true, List.any_eq_true,
      listInfixB_iff, listSuffixB_iff, Option.isNone_iff_eq_none]
    constructor
    · rintro (⟨hm, ho⟩ | hd)
      · exact Or.inl ⟨ho, hm⟩
      · exact Or.inr hd
    · rintro (⟨ho, hm⟩ | hd)
      · exact Or.inl ⟨hm, ho⟩
      · exact Or.inr hd
  · rw [pendingOfCandidates, pendingOfCandidates, h]
  · rw [pendingOfCandidates] at h
    split at h
    next l2 hl =>
      split at h
      next hi =>
        obtain rfl : l2 = l := Option.some.inj h
        exact ⟨hl, hi⟩
      next => exact Option.noConfusion h
    next => exact Option.noConfusion h

/-- Witness for `incompleteness_test_exact` at a concrete candidate
list whose last element is the fragment `fragQ`. -/
theorem incompleteness_test_exact_witness :
    [qComplete, fragQ].getLast? = some fragQ
      ∧ is_question_incomplete fragQ = true :=
  incompleteness_test_exact.2.2 [qComplete, fragQ] fragQ (by decide)

/-- Claim C8 (confirmed).  `append_to_json_file`: a well-formed existing
document is extended at the end with the new records, existing records
preserved unchanged; an absent or malformed document is treated as empty,
so the result is the new records alone. -/
theorem append_contract (data : List StoredRecord) :
    (∀ l, append_to_json_file data (.wellFormed l) = l ++ data
        ∧ (append_to_json_file data (.wellFormed l)).take l.length = l)
      ∧ append_to_json_file data .absent = data
      ∧ append_to_json_file data .malformed = data := by
  refine ⟨fun l => ⟨rfl, ?_⟩, rfl, rfl⟩
  rw [append_to_json_file, loadedRecords]
  exact List.take_left l data

/-- Claim C10 (confirmed).  When a pending fragment exists and the page
parses to a non-empty list, the first returned record is appended as the
head of the output of the page unconditionally — the incompleteness test and
the new pending buffer are computed from the remaining records only.
Consequently a question spanning three pages (here: `fragQ` buffered on
page 1, its merged-but-still-incomplete completion `fragQ` returned first
on page 2) is stored in truncated form rather than re-buffered. -/
theorem merged_completion_unconditional :
    (∀ (name : String) (p : Nat) (b r0 : RawQuestion) (rest : List RawQuestion),
        processPage name p (some b) (some (r0 :: rest))
          = (rawStored r0 :: (keptCandidates rest).map (finalize name p),
             pendingOfCandidates rest))
      ∧ is_question_incomplete fragQ = true
      ∧ processFileList "c10.pdf" [some [fragQ], some [fragQ], some [contQ]]
          = [rawStored fragQ, finalize "c10.pdf" 3 contQ] :=
  ⟨fun _ _ _ _ _ => rfl, by decide, by decide⟩

/-- Claim C9 (confirmed).  Every record the run finalizes (i.e. that carries
provenance) has `searchable_text` equal to the f-string concatenation of
its section title, question number and stem computed at finalization —
null optional fields rendered the way the source renders them. -/
theorem searchable_text_of_finalized
    (ex : Nat → Option RawQuestion → Option (List RawQuestion))
    (name : String) (n : Nat) (r : StoredRecord)
    (hm : r ∈ fileRecords ex name n) (hf : r.source_pdf.isSome = true) :
    r.source_pdf = some name
      ∧ r.searchable_text
          = some (pyOptStr r.q.section_title ++ " " ++ pyOptStr r.q.question_number
              ++ ": " ++ r.q.stem_text) := by
  rcases mem_runPages_fst hm with ⟨q, rfl⟩ | ⟨p, q, _, rfl⟩
  · simp [rawStored] at hf
  · exact ⟨rfl, rfl⟩

/-- Witness for `searchable_text_of_finalized` on a one-page file whose
question has a null `section_title`. -/
theorem searchable_text_of_finalized_witness :
    (finalize "w9.pdf" 1 qNullTitle).source_pdf = some "w9.pdf"
      ∧ (finalize "w9.pdf" 1 qNullTitle).searchable_text
          = some (pyOptStr qNullTitle.section_title ++ " "
              ++ pyOptStr qNullTitle.question_number ++ ": "
              ++ qNullTitle.stem_text) :=
  searchable_text_of_finalized (exOfList [some [qNullTitle]]) "w9.pdf" 1
    (finalize "w9.pdf" 1 qNullTitle) (by decide) (by decide)

/-! ### Idempotence of a re-run -/

/-- Processing one file only ever appends to the ledger. -/
theorem ledger_grows (processedSet : List String) (st : PipelineState)
    (f : FileInput) :
    ∃ t, (processOneFile processedSet st f).ledger = st.ledger ++ t := by
  rw [processOneFile]
  split
  · exact ⟨[], (List.append_nil _).symm⟩
  · split
    · exact ⟨[], (List.append_nil _).symm⟩
    · split
      · exact ⟨[], (List.append_nil _).symm⟩
      · exact ⟨[f.name], rfl⟩

/-- A whole run only ever appends to the ledger. -/
theorem ledger_grows_fold (files : List FileInput) (processedSet : List String)
    (st : PipelineState) :
    ∃ t, (files.foldl (processOneFile processedSet) st).ledger = st.ledger ++ t := by
  induction files generalizing st with
  | nil => exact ⟨[], (List.append_nil _).symm⟩
  | cons f fs ih =>
      rcases ledger_grows processedSet st f with ⟨t1, h1⟩
      rcases ih (processOneFile processedSet st f) with ⟨t2, h2⟩
      exact ⟨t1 ++ t2, by rw [List.foldl_cons, h2, h1, List.append_assoc]⟩

/-- Ledger membership survives the rest of a run. -/
theorem mem_ledger_fold {x : String} (files : List FileInput)
    (processedSet : List String) (st : PipelineState) (hx : x ∈ st.ledger) :
    x ∈ (files.foldl (processOneFile processedSet) st).ledger := by
  rcases ledger_grows_fold files processedSet st with ⟨t, ht⟩
  rw [ht]
  exact List.mem_append_left t hx

/-- After its own step, a file is marked — or it is one of the three
skip cases. -/
theorem file_settled (processedSet : List String) (st : PipelineState)
    (f : FileInput) :
    f.name ∈ (processOneFile processedSet st f).ledger
      ∨ renderCount f.render = 0 ∨ fileRecs f = [] ∨ f.name ∈ processedSet := by
  rw [processOneFile]
  split
  next hm => exact Or.inr (Or.inr (Or.inr hm))
  next =>
    split
    next h0 => exact Or.inr (Or.inl h0)
    next =>
      split
      next he => exact Or.inr (Or.inr (Or.inl he))
      next => exact Or.inl (List.mem_append_right _ (List.mem_singleton.2 rfl))

/-- After a whole run, every input file is marked in the final ledger or is
a state-independent skip case. -/
theorem settled_after_run (files : List FileInput) (processedSet : List String)
    (st : PipelineState) (f : FileInput) :
    f ∈ files →
      f.name ∈ (files.foldl (processOneFile processedSet) st).ledger
        ∨ renderCount f.render = 0 ∨ fileRecs f = [] ∨ f.name ∈ processedSet := by
  induction files generalizing st with
  | nil => intro hf; cases hf
  | cons g gs ih =>
      intro hf
      rw [List.foldl_cons]
      rcases List.mem_cons.1 hf with rfl | hf2
      · rcases file_settled processedSet st f with h | h
        · exact Or.inl (mem_ledger_fold gs processedSet _ h)
        · exact Or.inr h
      · exact ih _ hf2

/-- The three skip cases leave the state untouched. -/
theorem file_noop (processedSet : List String) (st : PipelineState)
    (f : FileInput)
    (h : f.name ∈ processedSet ∨ renderCount f.render = 0 ∨ fileRecs f = []) :
    processOneFile processedSet st f = st := by
  rw [processOneFile]
  rcases h with h | h | h
  · rw [if_pos h]
  · by_cases hm : f.name ∈ processedSet
    · rw [if_pos hm]
    · rw [if_neg hm, if_pos h]
  · by_cases hm : f.name ∈ processedSet
    · rw [if_pos hm]
    · by_cases h0 : renderCount f.render = 0
      · rw [if_neg hm, if_pos h0]
      · rw [if_neg hm, if_neg h0, if_pos h]

/-- A fold of pointwise-identity steps is the identity. -/
theorem fold_noop (files : List FileInput) (processedSet : List String)
    (st : PipelineState)
    (h : ∀ f ∈ files, ∀ s : PipelineState, processOneFile processedSet s f = s) :
    files.foldl (processOneFile processedSet) st = st := by
  induction files generalizing st with
  | nil => rfl
  | cons g gs ih =>
      rw [List.foldl_cons, h g (List.mem_cons_self g gs) st]
      exact ih st (fun f hf s => h f (List.mem_cons_of_mem g hf) s)

/-- Claim C6 (confirmed).  Running the pipeline a second time over the same
input list (rendering and extraction being fixed functions) leaves the
persisted state — Store content and ledger — exactly as the first run
left it: every file is either now in the ledger loaded at the start of the
second run, or was a zero-image/zero-record file the first time and is
again. -/
theorem pipeline_idempotent (files : List FileInput) (st : PipelineState) :
    runBatch files (runBatch files st) = runBatch files st := by
  refine fold_noop files (runBatch files st).ledger (runBatch files st) ?_
  intro f hf s
  apply file_noop
  rcases settled_after_run files st.ledger st f hf with h | h | h | h
  · exact Or.inl h
  · exact Or.inr (Or.inl h)
  · exact Or.inr (Or.inr h)
  · exact Or.inl (mem_ledger_fold files st.ledger st h)

/-! ### Order of the emitted records -/

/-- Unfolding of one iteration of the page loop (record component). -/
theorem runPages_succ_fst
    (ex : Nat → Option RawQuestion → Option (List RawQuestion))
    (name : String) (k n : Nat) (pending : Option RawQuestion) :
    (runPages ex name k (n + 1) pending).1
      = (processPage name k pending (ex k pending)).1
          ++ (runPages ex name (k + 1) n
              (processPage name k pending (ex k pending)).2).1 := rfl

/-- A record emitted by a page step carries the number of that page or no page
at all. -/
theorem processPage_source_page {name : String} {p : Nat}
    {pending : Option RawQuestion} {res : Option (List RawQuestion)}
    {r : StoredRecord} (h : r ∈ (processPage name p pending res).1) :
    r.source_page = none ∨ r.source_page = some p := by
  rcases mem_processPage_fst h with ⟨q, rfl⟩ | ⟨q, rfl⟩
  · exact Or.inl rfl
  · exact Or.inr rfl

/-- Any page number carried by a record of the output of the loop is at least
the start page. -/
theorem runPages_source_page_ge
    {ex : Nat → Option RawQuestion → Option (List RawQuestion)}
    {name : String} {n k : Nat} {pending : Option RawQuestion}
    {r : StoredRecord} (h : r ∈ (runPages ex name k n pending).1) (p : Nat)
    (hp : r.source_page = some p) : k ≤ p := by
  rcases mem_runPages_fst h with ⟨q, rfl⟩ | ⟨p2, q, hk, rfl⟩
  · exact Option.noConfusion hp
  · obtain rfl : p2 = p := Option.some.inj hp
    exact hk

theorem pairwise_le_of_all_eq {l : List Nat} {k : Nat} (h : ∀ a ∈ l, a = k) :
    List.Pairwise (fun a b => a ≤ b) l := by
  induction l with
  | nil => exact List.Pairwise.nil
  | cons a as ih =>
      refine List.Pairwise.cons (fun b hb => ?_)
        (ih (fun b hb => h b (List.mem_cons_of_mem a hb)))
      rw [h a (List.mem_cons_self a as), h b (List.mem_cons_of_mem a hb)]

/-- The page numbers in the output of the loop, in emission order, are
nondecreasing. -/
theorem runPages_pairwise
    {ex : Nat → Option RawQuestion → Option (List RawQuestion)}
    {name : String} :
    ∀ (n k : Nat) (pending : Option RawQuestion),
      List.Pairwise (fun a b => a ≤ b)
        (((runPages ex name k n pending).1).filterMap (fun r => r.source_page))
  | 0, k, pending => by
      rw [runPages]
      exact List.Pairwise.nil
  | n + 1, k, pending => by
      rw [runPages_succ_fst, List.filterMap_append, List.pairwise_append]
      refine ⟨?_, runPages_pairwise n (k + 1) _, ?_⟩
      · apply pairwise_le_of_all_eq
        intro a ha
        rcases List.mem_filterMap.1 ha with ⟨r, hr, hrp⟩
        rcases processPage_source_page hr with h0 | h0
        · rw [h0] at hrp
          exact Option.noConfusion hrp
        · rw [h0] at hrp
          exact (Option.some.inj hrp).symm
      · intro a ha b hb
        rcases List.mem_filterMap.1 ha with ⟨r, hr, hrp⟩
        rcases List.mem_filterMap.1 hb with ⟨r2, hr2, hrp2⟩
        have ha2 : a = k := by
          rcases processPage_source_page hr with h0 | h0
          · rw [h0] at hrp
            exact Option.noConfusion hrp
          · rw [h0] at hrp
            exact (Option.some.inj hrp).symm
        have hb2 : k + 1 ≤ b := runPages_source_page_ge hr2 b hrp2
        omega

/-- Filtering a finalized page batch to a page number keeps everything or
nothing. -/
theorem filter_map_finalize (name : String) (pg p : Nat) (l : List RawQuestion) :
    (l.map (finalize name pg)).filter (fun r => r.source_page == some p)
      = if p = pg then l.map (finalize name pg) else [] := by
  induction l with
  | nil => split <;> rfl
  | cons q qs ih =>
      have hc : ((finalize name pg q).source_page == some p) = (pg == p) := rfl
      by_cases hp : p = pg
      · subst hp
        simp [List.filter_cons, hc, ih]
      · have hne : pg ≠ p := fun h2 => hp h2.symm
        simp [List.filter_cons, hc, ih, hp, hne]

/-- The records a page step emits, filtered to the number of that page, are
exactly the finalized kept candidates; filtered to any other page number,
nothing remains. -/
theorem processPage_filter_eq (name : String) (pg : Nat)
    (pending : Option RawQuestion) (res : Option (List RawQuestion)) (p : Nat) :
    ((processPage name pg pending res).1).filter
        (fun r => r.source_page == some p)
      = if p = pg
          then (keptCandidates (pageCandidates pending res)).map (finalize name pg)
          else [] := by
  rcases res with _ | l
  · rcases pending with _ | b <;> (split <;> rfl)
  · rcases l with _ | ⟨r0, rest⟩
    · rcases pending with _ | b <;> (split <;> rfl)
    · rcases pending with _ | b
      · exact filter_map_finalize name pg p (keptCandidates (r0 :: rest))
      · rw [show (processPage name pg (some b) (some (r0 :: rest))).1
            = rawStored r0 :: (keptCandidates rest).map (finalize name pg) from rfl,
          List.filter_cons]
        have hc : ((rawStored r0).source_page == some p) = false := rfl
        rw [hc, if_neg Bool.false_ne_true]
        exact filter_map_finalize name pg p (keptCandidates rest)

theorem keptCandidates_sublist (cs : List RawQuestion) :
    List.Sublist (keptCandidates cs) cs := by
  rw [keptCandidates]
  split
  · split
    · exact List.dropLast_sublist cs
    · exact List.Sublist.refl cs
  · exact List.Sublist.refl cs

theorem pageCandidates_sublist (pending : Option RawQuestion)
    (res : Option (List RawQuestion)) :
    List.Sublist (pageCandidates pending res) (pageRaw res) := by
  rcases res with _ | l
  · rcases pending with _ | b
    · exact List.Sublist.refl _
    · exact List.Sublist.refl _
  · rcases l with _ | ⟨r0, rest⟩
    · rcases pending with _ | b
      · exact List.Sublist.refl _
      · exact List.Sublist.refl _
    · rcases pending with _ | b
      · exact List.Sublist.refl _
      · exact List.sublist_cons_self r0 rest

/-- The records of the whole loop filtered to one page number: the kept
candidates of that page (with the pending buffer the run actually had
entering it), when in range; nothing otherwise. -/
theorem runPages_filter_eq
    (ex : Nat → Option RawQuestion → Option (List RawQuestion))
    (name : String) :
    ∀ (n k p : Nat),
      ((runPages ex name (k + 1) n (pendAt ex name k)).1).filter
          (fun r => r.source_page == some p)
        = if k + 1 ≤ p ∧ p ≤ k + n
            then (keptCandidates (pageCandidates (pendAt ex name (p - 1))
                (ex p (pendAt ex name (p - 1))))).map (finalize name p)
            else []
  | 0, k, p => by
      have hc : ¬(k + 1 ≤ p ∧ p ≤ k + 0) := by omega
      rw [runPages, if_neg hc]
      rfl
  | n + 1, k, p => by
      have hpend : (processPage name (k + 1) (pendAt ex name k)
          (ex (k + 1) (pendAt ex name k))).2 = pendAt ex name (k + 1) := rfl
      rw [runPages_succ_fst, List.filter_append,
        processPage_filter_eq name (k + 1) (pendAt ex name k)
          (ex (k + 1) (pendAt ex name k)) p,
        hpend, runPages_filter_eq ex name n (k + 1) p]
      by_cases hp : p = k + 1
      · subst hp
        have h2 : ¬(k + 1 + 1 ≤ k + 1 ∧ k + 1 ≤ k + 1 + n) := by omega
        have h3 : k + 1 ≤ k + 1 ∧ k + 1 ≤ k + (n + 1) := by omega
        have h4 : k + 1 - 1 = k := by omega
        rw [if_pos rfl, if_neg h2, List.append_nil, if_pos h3, h4]
      · have h5 : (k + 1 + 1 ≤ p ∧ p ≤ k + 1 + n)
            ↔ (k + 1 ≤ p ∧ p ≤ k + (n + 1)) := by omega
        rw [if_neg hp, List.nil_append, if_congr h5 rfl rfl]

/-- Claim C7 (confirmed for the finalized records).  In the record list the
run of a file appends to the Store: the page numbers carried by the
provenance-tagged records are nondecreasing in emission order, and the
records tagged with any page `p`, in order, are (the finalization of) a
sublist of the raw extraction result of that page — candidates keep their
original relative order within a page. -/
theorem records_in_page_order
    (ex : Nat → Option RawQuestion → Option (List RawQuestion))
    (name : String) (n : Nat) :
    List.Pairwise (fun a b => a ≤ b)
        ((fileRecords ex name n).filterMap (fun r => r.source_page))
      ∧ ∀ p : Nat,
          List.Sublist
            (((fileRecords ex name n).filter
              (fun r => r.source_page == some p)).map (fun r => r.q))
            (pageRaw (ex p (pendAt ex name (p - 1)))) := by
  constructor
  · exact runPages_pairwise n 1 none
  · intro p
    have h := runPages_filter_eq ex name n 0 p
    simp only [Nat.zero_add] at h
    rw [show fileRecords ex name n = (runPages ex name 1 n none).1 from rfl,
      show (none : Option RawQuestion) = pendAt ex name 0 from rfl, h]
    by_cases hr : 1 ≤ p ∧ p ≤ n
    · rw [if_pos hr, List.map_map]
      have hid : ((fun r : StoredRecord => r.q) ∘ finalize name p)
          = id := funext (fun q => rfl)
      rw [hid, List.map_id]
      exact (keptCandidates_sublist _).trans (pageCandidates_sublist _ _)
    · rw [if_neg hr, List.map_nil]
      exact List.nil_sublist _

end GEEQB
